import Mathlib

/-!
# Verification of the noteflow note-taking core

Shallow embedding of the note store, the server access functions
(`src/server/functions.ts`, Zod-validated variant) and the client-side
optimistic mutation controller (`src/routes/index.tsx`,
infinite-query variant; `src/routes/notes/$id.tsx` for delete).

Timestamps (`createdAt`) are modelled as `Int` (milliseconds since epoch,
the precision of JS `Date`; the `toISOString`/`new Date` cursor round-trip
is the identity at that precision).  Ids are modelled as `Nat` standing
for opaque UUID strings.
-/

namespace Noteflow

/-- A note row, as selected from the `notes` table and shaped by the
server functions: `{ id, title, content, createdAt }`. -/
structure Note where
  id : Nat
  title : String
  content : String
  createdAt : Int
deriving DecidableEq, Repr

/-- The ordering the server's `orderBy(desc(notes.createdAt))` produces:
`a` may come before `b` when `b.createdAt ≤ a.createdAt`. -/
def descBy (a b : Note) : Prop := b.createdAt ≤ a.createdAt

instance : DecidableRel descBy := fun a b => by
  unfold descBy; infer_instance

instance : IsTotal Note descBy :=
  ⟨fun a b => le_total b.createdAt a.createdAt⟩

instance : IsTrans Note descBy :=
  ⟨fun _ _ _ h1 h2 => le_trans h2 h1⟩

/-- Strictly-descending `createdAt` order between two notes. -/
def strictDescBy (a b : Note) : Prop := b.createdAt < a.createdAt

instance : DecidableRel strictDescBy := fun a b => by
  unfold strictDescBy; infer_instance

instance : IsAntisymm Note strictDescBy :=
  ⟨fun _ _ h1 h2 => absurd h2 (lt_asymm h1)⟩

instance : IsTrans Note strictDescBy :=
  ⟨fun _ _ _ h1 h2 => lt_trans h2 h1⟩

/-- The `ORDER BY created_at DESC` clause over a bag of rows. -/
def sortByCreatedAtDesc (l : List Note) : List Note :=
  l.insertionSort descBy

/-- The `WHERE created_at < cursor` predicate of the `getNotes` handler;
absent cursor means no filtering (`undefined` where-clause). -/
def cursorPred : Option Int → Note → Bool
  | some c, n => decide (n.createdAt < c)
  | none, _ => true

/-- The `getNotes` server-function handler
(`src/server/functions.ts:110-136`): select rows with
`createdAt < cursor` (when a cursor is given), order by `createdAt`
descending, and take at most `limit` rows. -/
def getNotes (store : List Note) (cursor : Option Int) (limit : Nat) : List Note :=
  (sortByCreatedAtDesc (store.filter (cursorPred cursor))).take limit

/-- The `GetNotesSchema` Zod validation (`src/server/functions.ts:90-93`):
an optional cursor passes through; the limit must lie in `[1,100]` and
defaults to `20` when absent.  `none` is a validation failure. -/
def parseGetNotes (cursor : Option Int) (limit : Option Nat) :
    Option (Option Int × Nat) :=
  match limit with
  | none => some (cursor, 20)
  | some l => if 1 ≤ l ∧ l ≤ 100 then some (cursor, l) else none

/-- The validated `getNotes` server function: Zod validation followed by
the handler. -/
def getNotesServerFn (store : List Note) (cursor : Option Int)
    (limit : Option Nat) : Option (List Note) :=
  (parseGetNotes cursor limit).map fun p => getNotes store p.1 p.2

/-- JS `String.prototype.trim`: remove leading and trailing whitespace
(embedded over the character list so that it is kernel-executable;
`Char.isWhitespace` stands for the JS whitespace class). -/
def jsTrim (s : String) : String :=
  ⟨((s.data.dropWhile Char.isWhitespace).reverse.dropWhile
      Char.isWhitespace).reverse⟩

/-- The `CreateNoteSchema` Zod validation (`src/server/functions.ts:95-101`):
the raw (untrimmed) title must have length in `[1,255]` and the raw
content must be non-empty. -/
def parseCreateNote (title content : String) : Option (String × String) :=
  if 1 ≤ title.length ∧ title.length ≤ 255 ∧ 1 ≤ content.length then
    some (title, content)
  else none

/-- The `createNote` server function (`src/server/functions.ts:157-174`):
after Zod validation, insert a row whose title and content are the
trimmed inputs; the store assigns `freshId` and `now`.  `none` models a
thrown validation error (no row inserted). -/
def createNote (store : List Note) (freshId : Nat) (now : Int)
    (title content : String) : Option (List Note × Note) :=
  match parseCreateNote title content with
  | none => none
  | some (t, c) =>
    let newNote : Note := ⟨freshId, jsTrim t, jsTrim c, now⟩
    some (store ++ [newNote], newNote)

/-- The `deleteNote` server function (`src/server/functions.ts:177-190`):
delete the rows whose id matches, returning them; when nothing was
deleted, throw `notFound()` (modelled as `none`); otherwise succeed with
the remaining store. -/
def deleteNote (store : List Note) (i : Nat) : Option (List Note) :=
  let deleted := store.filter fun n => n.id == i
  if deleted.isEmpty then none
  else some (store.filter fun n => !(n.id == i))

/-- Constant `PAGINATION.DEFAULT_LIMIT` from `src/config/constants.ts`. -/
def DEFAULT_LIMIT : Nat := 20

/-- The TanStack infinite-query cache value for the `["notes"]` key:
an ordered sequence of pages plus the page params used to fetch them. -/
structure InfiniteData where
  pages : List (List Note)
  pageParams : List (Option Int)
deriving DecidableEq, Repr

/-- The `notesQueryOptions.getNextPageParam` function (`src/routes/index.tsx:111-114`)
generalised over the page size: when the last page is exactly `limit`
long, the cursor for the next page is the `createdAt` of its last note;
otherwise there is no next page.  (The source fixes
`limit = DEFAULT_LIMIT`; in a reachable call the page is then nonempty,
so the `lastPage[lastPage.length - 1]` access is modelled by
`getLast?`.) -/
def nextPageParam (lastPage : List Note) (limit : Nat) : Option Int :=
  if lastPage.length = limit then (lastPage.getLast?).map (·.createdAt) else none

/-- The client "load more" loop: fetch a page via the validated list
call, and as long as `nextPageParam` yields a cursor, fetch the next
page with it.  `fuel` bounds the number of calls (the real loop is
driven by user clicks; any `fuel > store.length` is enough, as proved
below). -/
def paginate (store : List Note) (limit : Nat) :
    Nat → Option Int → List (List Note)
  | 0, _ => []
  | fuel + 1, cursor =>
    match nextPageParam (getNotes store cursor limit) limit with
    | none => [getNotes store cursor limit]
    | some c => getNotes store cursor limit :: paginate store limit fuel (some c)

/-- The `setQueryData` updater of `createNoteMutation.onMutate`
(`src/routes/index.tsx:190-223`): with no cached value, install a single
page holding only the placeholder; otherwise prepend the placeholder to
the first page and, when that page now exceeds `DEFAULT_LIMIT`, move its
popped last element to the head of the second page.  (`pop` on the
nonempty `updatedFirstPage` is modelled by `dropLast`/`getLastD`; the
`if (lastItem)` truthiness check always succeeds on a note object.) -/
def specUpd (old : Option InfiniteData) (optimisticNote : Note) : InfiniteData :=
  match old with
  | none => ⟨[[optimisticNote]], [none]⟩
  | some o =>
    let firstPage := o.pages.headD []
    let updatedFirstPage := optimisticNote :: firstPage
    if DEFAULT_LIMIT < updatedFirstPage.length then
      let lastItem := updatedFirstPage.getLastD optimisticNote
      let secondPage := o.pages.getD 1 []
      ⟨updatedFirstPage.dropLast :: (lastItem :: secondPage) :: o.pages.drop 2,
        o.pageParams⟩
    else
      ⟨updatedFirstPage :: o.pages.drop 1, o.pageParams⟩

/-- Model of `createNoteMutation.onError` (`src/routes/index.tsx:227-238`): the
cache is reset to the snapshot only when `context.previousData` is
truthy; an absent (undefined) snapshot leaves the cache as it is. -/
def onErrorRollback (previousData current : Option InfiniteData) :
    Option InfiniteData :=
  match previousData with
  | some d => some d
  | none => current

/-- Cache contents after a failed optimistic create: the snapshot `S`
is taken, the speculative update is applied, the network call fails,
and `onError` runs its rollback. -/
def cacheAfterFailedCreate (S : Option InfiniteData) (optimisticNote : Note) :
    Option InfiniteData :=
  onErrorRollback S (some (specUpd S optimisticNote))

/-- The `setQueryData` updater of `createNoteMutation.onSuccess`
(`src/routes/index.tsx:245-261`): in every page, the note whose id
equals the placeholder's id is replaced by the server-returned note with
the placeholder's `createdAt` kept; every other note is untouched, and
`pageParams` is spread through unchanged. -/
def reconcile (old : InfiniteData) (optimisticId : Nat) (server : Note) :
    InfiniteData :=
  { old with
    pages := old.pages.map fun page =>
      page.map fun note =>
        if note.id = optimisticId then
          { server with createdAt := note.createdAt }
        else note }

/-- Function `handleDelete` in the note-detail route
(`src/routes/notes/$id.tsx:45-63`): await the network delete; on success
toast and navigate home, on failure toast the error.  It never reads or
writes the notes query cache, so the cache component is passed through
unchanged; the returned flag is whether the delete succeeded. -/
def handleDelete (cache : Option InfiniteData) (store : List Note) (i : Nat) :
    List Note × Option InfiniteData × Bool :=
  match deleteNote store i with
  | some store' => (store', cache, true)
  | none => (store, cache, false)

/-- The ids of all notes across the concatenation of the cached pages. -/
def cacheIds (d : InfiniteData) : List Nat := d.pages.flatten.map Note.id

/-- No two notes in the cache share an id. -/
def noDupIds (d : InfiniteData) : Prop := (cacheIds d).Nodup

instance (d : InfiniteData) : Decidable (noDupIds d) := by
  unfold noDupIds; infer_instance

/-! ## General helper lemmas -/

/-- Popping the last element of a nonempty list and re-appending it in
front of a continuation is the identity on the concatenation. -/
lemma cons_dropLast_getLastD {α} : ∀ (l : List α) (a d : α) (X : List α),
    (a :: l).dropLast ++ (a :: l).getLastD d :: X = a :: l ++ X := by
  intro l
  induction l with
  | nil => intro a d X; simp
  | cons b t ih =>
    intro a d X
    simp only [List.dropLast_cons₂, List.getLastD_cons, List.cons_append]
    have h2 := ih b d X
    simp only [List.getLastD_cons] at h2
    rw [h2]
    simp

/-- Unfolded case form of the speculative-insert updater on a present
cache value. -/
lemma specUpd_some (o : InfiniteData) (m : Note) :
    specUpd (some o) m =
      if DEFAULT_LIMIT < (m :: o.pages.headD []).length then
        ⟨(m :: o.pages.headD []).dropLast ::
            ((m :: o.pages.headD []).getLastD m :: o.pages.getD 1 []) ::
            o.pages.drop 2, o.pageParams⟩
      else ⟨(m :: o.pages.headD []) :: o.pages.drop 1, o.pageParams⟩ := rfl

/-- The speculative insert, seen through the page concatenation, is a
plain prepend of the placeholder. -/
lemma specUpd_some_flatten (o : InfiniteData) (m : Note) :
    (specUpd (some o) m).pages.flatten = m :: o.pages.flatten := by
  rw [specUpd_some]
  cases hp : o.pages with
  | nil =>
    rw [if_neg (by simp [DEFAULT_LIMIT])]
    simp
  | cons a l =>
    by_cases hb : DEFAULT_LIMIT < (m :: (a :: l).headD []).length
    · rw [if_pos hb]
      simp only [List.headD_cons, List.flatten_cons]
      rw [← List.append_assoc, cons_dropLast_getLastD]
      cases l with
      | nil => simp
      | cons b r => simp [List.flatten_cons]
    · rw [if_neg hb]
      simp [List.flatten_cons]

/-- The reconciliation updater maps a pointwise replacement over the
page concatenation. -/
lemma reconcile_flatten (d : InfiniteData) (i : Nat) (sv : Note) :
    (reconcile d i sv).pages.flatten
      = d.pages.flatten.map (fun note =>
          if note.id = i then { sv with createdAt := note.createdAt }
          else note) :=
  (List.map_flatten _ _).symm

/-- Equation form of the empty-cursor predicate. -/
lemma cursorPred_none : cursorPred none = fun _ => true := rfl

/-- Equation form of the present-cursor predicate. -/
lemma cursorPred_some (c : Int) :
    cursorPred (some c) = fun n => decide (n.createdAt < c) := rfl

/-- The server sort is sorted (weakly) by descending `createdAt`. -/
lemma sort_pairwise_desc (l : List Note) :
    (sortByCreatedAtDesc l).Pairwise descBy :=
  List.sorted_insertionSort descBy l

/-- The server sort is a permutation of its input. -/
lemma sort_perm (l : List Note) : (sortByCreatedAtDesc l).Perm l :=
  List.perm_insertionSort descBy l

/-- With pairwise-distinct `createdAt` keys, the server sort is strictly
descending. -/
lemma pairwise_strict_of_nodup_keys (l : List Note)
    (hd : (l.map Note.createdAt).Nodup) :
    (sortByCreatedAtDesc l).Pairwise strictDescBy := by
  have hsorted : (sortByCreatedAtDesc l).Pairwise descBy := sort_pairwise_desc l
  have hmap : ((sortByCreatedAtDesc l).map Note.createdAt).Nodup :=
    (((sort_perm l).map Note.createdAt).nodup_iff).mpr hd
  have hne : (sortByCreatedAtDesc l).Pairwise
      (fun a b => a.createdAt ≠ b.createdAt) := List.pairwise_map.mp hmap
  exact (hsorted.and hne).imp fun h => lt_of_le_of_ne h.1 h.2.symm

/-- Filtering commutes with the server sort when `createdAt` keys are
pairwise distinct. -/
lemma sort_filter_comm (l : List Note) (hd : (l.map Note.createdAt).Nodup)
    (p : Note → Bool) :
    sortByCreatedAtDesc (l.filter p) = (sortByCreatedAtDesc l).filter p := by
  have hd2 : ((l.filter p).map Note.createdAt).Nodup :=
    hd.sublist ((List.filter_sublist l).map Note.createdAt)
  have hs1 : (sortByCreatedAtDesc (l.filter p)).Pairwise strictDescBy :=
    pairwise_strict_of_nodup_keys _ hd2
  have hs2 : ((sortByCreatedAtDesc l).filter p).Pairwise strictDescBy :=
    (pairwise_strict_of_nodup_keys l hd).sublist (List.filter_sublist _)
  have hperm : (sortByCreatedAtDesc (l.filter p)).Perm
      ((sortByCreatedAtDesc l).filter p) :=
    (sort_perm (l.filter p)).trans ((sort_perm l).filter p).symm
  exact List.eq_of_perm_of_sorted hperm hs1 hs2

/-- A list call equals a `take` from the filtered full sort (distinct
keys). -/
lemma getNotes_eq_take (store : List Note)
    (hd : (store.map Note.createdAt).Nodup) (cursor : Option Int) (L : Nat) :
    getNotes store cursor L
      = ((sortByCreatedAtDesc store).filter (cursorPred cursor)).take L := by
  unfold getNotes
  rw [sort_filter_comm store hd]

/-- In a pairwise-related list, every element before the last is related
to the last. -/
lemma pairwise_rel_getLast {α} {R : α → α → Prop} :
    ∀ (t : List α), t.Pairwise R → ∀ x, t.getLast? = some x →
      ∀ a ∈ t.dropLast, R a x := by
  intro t
  induction t with
  | nil => intro _ x hx; simp at hx
  | cons b u ih =>
    intro hp x hx a ha
    cases u with
    | nil => simp at ha
    | cons c v =>
      rw [List.getLast?_cons_cons] at hx
      rw [List.dropLast_cons₂] at ha
      rcases List.mem_cons.mp ha with rfl | ha2
      · exact (List.pairwise_cons.mp hp).1 x (List.mem_of_mem_getLast? hx)
      · exact ih (List.pairwise_cons.mp hp).2 x hx a ha2

/-- On a strictly descending list, filtering by "strictly older than the
last element of the first `L`" yields exactly the part after the first
`L` elements. -/
lemma filter_lt_getLast_take (l : List Note) (L : Nat) (x : Note)
    (hs : l.Pairwise strictDescBy)
    (hx : (l.take L).getLast? = some x) :
    l.filter (fun n => decide (n.createdAt < x.createdAt)) = l.drop L := by
  have hne : l.take L ≠ [] := by
    intro h
    rw [h] at hx
    simp at hx
  have hxlast : (l.take L).getLast hne = x := by
    have heq := List.getLast?_eq_getLast (l.take L) hne
    rw [heq] at hx
    exact (Option.some.injEq _ _ ▸ hx)
  have htake : (l.take L).Pairwise strictDescBy :=
    hs.sublist (List.take_sublist L l)
  have hsplit : ((l.take L) ++ (l.drop L)).Pairwise strictDescBy := by
    rw [List.take_append_drop]
    exact hs
  have h1 : (l.take L).filter (fun n => decide (n.createdAt < x.createdAt))
      = [] := by
    rw [List.filter_eq_nil_iff]
    intro a ha
    have hmem : a ∈ (l.take L).dropLast ++ [(l.take L).getLast hne] := by
      rw [List.dropLast_append_getLast hne]
      exact ha
    rcases List.mem_append.mp hmem with hdl | hlast
    · have hax : strictDescBy a x :=
        pairwise_rel_getLast (l.take L) htake x hx a hdl
      simp only [decide_eq_true_eq]
      exact fun hlt => absurd hlt (lt_asymm hax)
    · have : a = x := by
        rw [hxlast] at hlast
        simpa using hlast
      subst this
      simp
  have h2 : (l.drop L).filter (fun n => decide (n.createdAt < x.createdAt))
      = l.drop L := by
    rw [List.filter_eq_self]
    intro b hb
    have hxtake : x ∈ l.take L := List.mem_of_mem_getLast? hx
    have hcross := (List.pairwise_append.mp hsplit).2.2
    have hxb : strictDescBy x b := hcross x hxtake b hb
    simpa using hxb
  conv_lhs => rw [← List.take_append_drop L l]
  rw [List.filter_append, h1, h2, List.nil_append]

/-- Filtering below a bound `k` below the cursor `c` is unaffected by
first filtering below `c`. -/
lemma filter_lt_lt (l : List Note) (k c : Int) (hkc : k < c) :
    l.filter (fun n => decide (n.createdAt < k)) =
      (l.filter (fun n => decide (n.createdAt < c))).filter
        (fun n => decide (n.createdAt < k)) := by
  rw [List.filter_filter]
  apply List.filter_congr
  intro a _
  by_cases h : a.createdAt < k
  · simp [h, lt_trans h hkc]
  · simp [h]

/-- Main pagination invariant: with pairwise-distinct `createdAt` keys
and a positive page size, the client loop started at any cursor, given
enough fuel, concatenates to exactly the cursor-filtered descending sort
of the store, and its last fetched page is shorter than the page size. -/
lemma paginate_spec (store : List Note) (L : Nat) (hL : 1 ≤ L)
    (hd : (store.map Note.createdAt).Nodup) :
    ∀ fuel (cursor : Option Int),
      ((sortByCreatedAtDesc store).filter (cursorPred cursor)).length < fuel →
      (paginate store L fuel cursor).flatten
          = (sortByCreatedAtDesc store).filter (cursorPred cursor)
      ∧ ∃ p, (paginate store L fuel cursor).getLast? = some p
          ∧ p.length < L := by
  intro fuel
  induction fuel with
  | zero => intro cursor h; omega
  | succ fuel ih =>
    intro cursor hlen
    set l := (sortByCreatedAtDesc store).filter (cursorPred cursor) with hldef
    have hpage : getNotes store cursor L = l.take L :=
      getNotes_eq_take store hd cursor L
    by_cases hfull : (getNotes store cursor L).length = L
    · have hpne : getNotes store cursor L ≠ [] := by
        intro h
        rw [h] at hfull
        simp at hfull
        omega
      have hx : (getNotes store cursor L).getLast?
          = some ((getNotes store cursor L).getLast hpne) :=
        List.getLast?_eq_getLast _ hpne
      set x := (getNotes store cursor L).getLast hpne with hxdef
      have hnp : nextPageParam (getNotes store cursor L) L
          = some x.createdAt := by
        unfold nextPageParam
        rw [if_pos hfull, hx]
        rfl
      have hstep : paginate store L (fuel + 1) cursor
          = getNotes store cursor L
              :: paginate store L fuel (some x.createdAt) := by
        simp only [paginate, hnp]
      have hlpair : l.Pairwise strictDescBy :=
        (pairwise_strict_of_nodup_keys store hd).sublist
          (List.filter_sublist _)
      have hxtake : (l.take L).getLast? = some x := by
        rw [← hpage]
        exact hx
      have hxl : x ∈ l :=
        List.mem_of_mem_take (hpage ▸ List.mem_of_mem_getLast? hx)
      have hkey : (sortByCreatedAtDesc store).filter
          (cursorPred (some x.createdAt)) = l.drop L := by
        cases cursor with
        | none =>
          have hleq : l = sortByCreatedAtDesc store := by
            rw [hldef, cursorPred_none, List.filter_true]
          rw [cursorPred_some, ← hleq]
          exact filter_lt_getLast_take l L x hlpair hxtake
        | some c0 =>
          have hxc : x.createdAt < c0 := by
            have hm := List.mem_filter.mp (hldef ▸ hxl)
            simpa [cursorPred] using hm.2
          rw [cursorPred_some,
            filter_lt_lt (sortByCreatedAtDesc store) x.createdAt c0 hxc,
            ← cursorPred_some c0, ← hldef]
          exact filter_lt_getLast_take l L x hlpair hxtake
      have hLle : L ≤ l.length := by
        rw [hpage, List.length_take] at hfull
        by_cases hcase : L ≤ l.length
        · exact hcase
        · rw [Nat.min_eq_right (Nat.le_of_lt (Nat.lt_of_not_le hcase))]
            at hfull
          omega
      have hrec := ih (some x.createdAt)
        (by rw [hkey, List.length_drop]; omega)
      rw [hkey] at hrec
      obtain ⟨hflat2, p, hlast2, hplen⟩ := hrec
      refine ⟨?_, ⟨p, ?_, hplen⟩⟩
      · rw [hstep, List.flatten_cons, hflat2, hpage, List.take_append_drop]
      · rw [hstep]
        cases hrest : paginate store L fuel (some x.createdAt) with
        | nil =>
          rw [hrest] at hlast2
          simp at hlast2
        | cons r rs =>
          rw [hrest] at hlast2
          rw [List.getLast?_cons_cons]
          exact hlast2
    · have hnp : nextPageParam (getNotes store cursor L) L = none := by
        unfold nextPageParam
        rw [if_neg hfull]
      have hstep : paginate store L (fuel + 1) cursor
          = [getNotes store cursor L] := by
        simp only [paginate, hnp]
      have hlenle : (getNotes store cursor L).length ≤ L := by
        rw [hpage]
        exact List.length_take_le L l
      have htake_all : l.take L = l := by
        rw [hpage, List.length_take] at hfull
        apply List.take_of_length_le
        by_cases hcase : L ≤ l.length
        · rw [Nat.min_eq_left hcase] at hfull
          omega
        · exact Nat.le_of_lt (Nat.lt_of_not_le hcase)
      refine ⟨?_, ⟨getNotes store cursor L, ?_, ?_⟩⟩
      · rw [hstep]
        simp only [List.flatten_cons, List.flatten_nil, List.append_nil]
        rw [hpage, htake_all]
      · rw [hstep]
        rfl
      · omega

/-! ## C10: speculative create on an empty cache -/

/-- C10 (confirmed): when the cache holds no data for the notes query,
the speculative update installs exactly one page containing only the
placeholder note, with a single undefined page param. -/
theorem empty_cache_speculative_create (optimisticNote : Note) :
    specUpd none optimisticNote = ⟨[[optimisticNote]], [none]⟩ := rfl

/-! ## C3: optimistic rollback -/

/-- C3, counterexample to the claim as stated: when the snapshot taken
at the start of the optimistic create is the empty cache (`none`), the
rollback guard `if (context?.previousData)` does not fire, so after a
failed create the placeholder page remains and the cache is not
value-equal to the snapshot. -/
theorem optimistic_rollback_cex :
    cacheAfterFailedCreate none ⟨9, "t", "c", 0⟩ ≠ none := by decide

/-- C3 (amended): for every cache state `S` that was actually present
(non-empty snapshot) at the start of an optimistic create, if the
network create call fails, the cache after the rollback step is
value-equal to `S`. -/
theorem optimistic_rollback (S : InfiniteData) (optimisticNote : Note) :
    cacheAfterFailedCreate (some S) optimisticNote = some S := rfl

/-! ## C9: the client delete path -/

/-- C9, counterexample to the claim as stated: a client delete of id 5
from a one-page cache containing note 5 succeeds at the server, yet the
cache it returns is exactly the input cache — the target id was never
speculatively filtered out of the pages. -/
theorem optimistic_delete_cex :
    (handleDelete (some ⟨[[⟨5, "a", "b", 1⟩]], [none]⟩) [⟨5, "a", "b", 1⟩] 5).2.1
        = some ⟨[[⟨5, "a", "b", 1⟩]], [none]⟩
    ∧ (handleDelete (some ⟨[[⟨5, "a", "b", 1⟩]], [none]⟩) [⟨5, "a", "b", 1⟩] 5).2.2
        = true := by decide

/-- C9 (amended): the client delete path performs no optimistic cache
edit at all — it leaves the notes query cache untouched whether the
network delete succeeds or fails; the store is updated exactly when the
server delete succeeds, and the reported outcome mirrors the server
result. -/
theorem delete_path_no_cache_edit (cache : Option InfiniteData)
    (store : List Note) (i : Nat) :
    (handleDelete cache store i).2.1 = cache
    ∧ (handleDelete cache store i).2.2 = (deleteNote store i).isSome
    ∧ (handleDelete cache store i).1 = (deleteNote store i).getD store := by
  unfold handleDelete
  cases deleteNote store i <;> simp

/-! ## C7: the delete not-found boundary -/

/-- Case-split form of `deleteNote`. -/
lemma deleteNote_eq (store : List Note) (i : Nat) :
    deleteNote store i =
      if (store.filter fun n => n.id == i) = [] then none
      else some (store.filter fun n => !(n.id == i)) := by
  unfold deleteNote
  by_cases h : (store.filter fun n => n.id == i) = [] <;>
    simp [List.isEmpty_iff, h]

/-- C7 (confirmed): `delete(id)` succeeds exactly when a note with that
id exists in the store; on success the id is removed while the other
notes remain, and a second delete of the same id fails with
`NotFoundError`. -/
theorem delete_notfound_boundary (store : List Note) (i : Nat) :
    ((deleteNote store i).isSome ↔ ∃ n ∈ store, n.id = i)
    ∧ (∀ s2, deleteNote store i = some s2 →
        (∀ n ∈ s2, n.id ≠ i)
        ∧ (∀ n ∈ store, n.id ≠ i → n ∈ s2)
        ∧ deleteNote s2 i = none) := by
  rw [deleteNote_eq]
  by_cases h : (store.filter fun n => n.id == i) = []
  · rw [if_pos h]
    constructor
    · simp only [Option.isSome_none, Bool.false_eq_true, false_iff]
      push_neg
      intro n hn
      have := List.filter_eq_nil_iff.mp h n hn
      simpa using this
    · intro s2 hs2
      exact absurd hs2 (by simp)
  · rw [if_neg h]
    constructor
    · simp only [Option.isSome_some, true_iff]
      obtain ⟨n, hn⟩ := List.exists_mem_of_ne_nil _ h
      have hmem := List.mem_filter.mp hn
      exact ⟨n, hmem.1, by simpa using hmem.2⟩
    · intro s2 hs2
      simp only [Option.some.injEq] at hs2
      subst hs2
      have hids : ∀ n ∈ store.filter (fun n => !(n.id == i)), n.id ≠ i := by
        intro n hn
        have := (List.mem_filter.mp hn).2
        simpa using this
      refine ⟨hids, ?_, ?_⟩
      · intro n hn hid
        exact List.mem_filter.mpr ⟨hn, by simpa using hid⟩
      · have hnil : (List.filter (fun n => n.id == i)
            (store.filter fun n => !(n.id == i))) = [] := by
          rw [List.filter_eq_nil_iff]
          intro n hn
          simpa using hids n hn
        rw [deleteNote_eq, if_pos hnil]

/-- Witness for C7 at a concrete store. -/
theorem delete_notfound_boundary_witness :
    (((deleteNote [⟨1, "a", "b", 0⟩] 1).isSome
        ↔ ∃ n ∈ [(⟨1, "a", "b", 0⟩ : Note)], n.id = 1)
    ∧ (∀ s2, deleteNote [⟨1, "a", "b", 0⟩] 1 = some s2 →
        (∀ n ∈ s2, n.id ≠ 1)
        ∧ (∀ n ∈ [(⟨1, "a", "b", 0⟩ : Note)], n.id ≠ 1 → n ∈ s2)
        ∧ deleteNote s2 1 = none)) :=
  delete_notfound_boundary [⟨1, "a", "b", 0⟩] 1

/-! ## C6: create validation -/

/-- C6, counterexample to the claim as stated: a title consisting of a
single space trims to the empty string, so the claim demands a
`ValidationError` before any insert — but the Zod schema checks the raw
string (length 1 ≥ 1), so the create succeeds and inserts a row whose
stored title is empty. -/
theorem create_validation_cex :
    jsTrim " " = ""
    ∧ createNote [] 7 11 " " "x"
        = some ([⟨7, "", "x", 11⟩], ⟨7, "", "x", 11⟩) := by decide

/-- C6 (amended): create validation is applied to the raw (untrimmed)
inputs — create fails, before any row is inserted, exactly when the raw
title is empty or longer than 255 characters or the raw content is
empty; otherwise it inserts exactly one row carrying the trimmed title
and content and returns that note. -/
theorem create_validation (store : List Note) (freshId : Nat) (now : Int)
    (t c : String) :
    (createNote store freshId now t c = none ↔
      (t.length = 0 ∨ 255 < t.length ∨ c.length = 0))
    ∧ (∀ r, createNote store freshId now t c = some r →
        r.1 = store ++ [r.2]
        ∧ r.2 = ⟨freshId, jsTrim t, jsTrim c, now⟩) := by
  have hcase : createNote store freshId now t c =
      if 1 ≤ t.length ∧ t.length ≤ 255 ∧ 1 ≤ c.length then
        some (store ++ [⟨freshId, jsTrim t, jsTrim c, now⟩],
          ⟨freshId, jsTrim t, jsTrim c, now⟩)
      else none := by
    unfold createNote parseCreateNote
    by_cases h : 1 ≤ t.length ∧ t.length ≤ 255 ∧ 1 ≤ c.length <;> simp [h]
  rw [hcase]
  by_cases h : 1 ≤ t.length ∧ t.length ≤ 255 ∧ 1 ≤ c.length
  · rw [if_pos h]
    refine ⟨by simp only [reduceCtorEq, false_iff]; omega, ?_⟩
    intro r hr
    simp only [Option.some.injEq] at hr
    subst hr
    exact ⟨rfl, rfl⟩
  · rw [if_neg h]
    refine ⟨by simp only [true_iff]; omega, ?_⟩
    intro r hr
    simp at hr

/-- Witness for C6 at concrete inputs. -/
theorem create_validation_witness :
    ((createNote [] 3 4 "hi" "there" = none ↔
      ("hi".length = 0 ∨ 255 < "hi".length ∨ "there".length = 0))
    ∧ (∀ r, createNote [] 3 4 "hi" "there" = some r →
        r.1 = [] ++ [r.2]
        ∧ r.2 = ⟨3, jsTrim "hi", jsTrim "there", 4⟩)) :=
  create_validation [] 3 4 "hi" "there"

/-! ## C5: page sizes under the speculative insert -/

/-- C5, counterexample to the claim as stated: in a cache whose first
and second pages are both full (`DEFAULT_LIMIT` notes each), the
speculative insert pops the first page's overflow into the second page
without rebalancing further, leaving a page of `DEFAULT_LIMIT + 1`
notes. -/
theorem page_size_invariant_cex :
    ((⟨[List.replicate 20 ⟨1, "a", "x", 5⟩, List.replicate 20 ⟨2, "b", "y", 3⟩],
        [none, some 3]⟩ : InfiniteData).pages.all
      fun p => p.length ≤ DEFAULT_LIMIT) = true
    ∧ ((specUpd (some ⟨[List.replicate 20 ⟨1, "a", "x", 5⟩,
          List.replicate 20 ⟨2, "b", "y", 3⟩], [none, some 3]⟩)
        ⟨9, "n", "n", 9⟩).pages.any
      fun p => DEFAULT_LIMIT < p.length) = true := by decide

/-- C5 (amended): starting from a cache whose pages each hold at most
`DEFAULT_LIMIT` notes, after the speculative insert the first page and
every page from the third on still hold at most `DEFAULT_LIMIT` notes,
and the second page holds at most `DEFAULT_LIMIT + 1`; every page stays
within `DEFAULT_LIMIT` unless the first and second pages were both
previously full. -/
theorem page_size_invariant (o : InfiniteData) (m : Note)
    (hall : ∀ p ∈ o.pages, p.length ≤ DEFAULT_LIMIT) :
    ((specUpd (some o) m).pages.headD []).length ≤ DEFAULT_LIMIT
    ∧ (∀ p ∈ (specUpd (some o) m).pages.drop 1, p.length ≤ DEFAULT_LIMIT + 1)
    ∧ (∀ p ∈ (specUpd (some o) m).pages.drop 2, p.length ≤ DEFAULT_LIMIT)
    ∧ (¬((o.pages.headD []).length = DEFAULT_LIMIT
          ∧ (o.pages.getD 1 []).length = DEFAULT_LIMIT) →
        ∀ p ∈ (specUpd (some o) m).pages, p.length ≤ DEFAULT_LIMIT) := by
  have hF : (o.pages.headD []).length ≤ DEFAULT_LIMIT := by
    cases hp : o.pages with
    | nil => simp
    | cons a l => exact hall a (by simp [hp])
  have hS : (o.pages.getD 1 []).length ≤ DEFAULT_LIMIT := by
    cases hp : o.pages with
    | nil => simp
    | cons a l =>
      cases l with
      | nil => simp
      | cons b l2 => exact hall b (by simp [hp])
  have hdropmem : ∀ k, ∀ p ∈ o.pages.drop k, p.length ≤ DEFAULT_LIMIT :=
    fun _ p hp => hall p (List.mem_of_mem_drop hp)
  rw [specUpd_some]
  by_cases hb : DEFAULT_LIMIT < (m :: o.pages.headD []).length
  · rw [if_pos hb]
    have hFfull : (o.pages.headD []).length = DEFAULT_LIMIT := by
      simp only [List.length_cons] at hb
      omega
    refine ⟨?_, ?_, ?_, ?_⟩
    · simp only [List.headD_cons, List.length_dropLast, List.length_cons]
      omega
    · intro p hp
      simp only [List.drop_one, List.tail_cons] at hp
      rcases List.mem_cons.mp hp with rfl | hp2
      · simp only [List.length_cons]
        omega
      · exact le_trans (hdropmem 2 p hp2) (by omega)
    · intro p hp
      simp only [List.drop_succ_cons, List.drop_one, List.tail_cons] at hp
      exact hdropmem 2 p hp
    · intro hnot p hp
      have hSne : (o.pages.getD 1 []).length ≠ DEFAULT_LIMIT := fun h =>
        hnot ⟨hFfull, h⟩
      rcases List.mem_cons.mp hp with rfl | hp1
      · simp only [List.length_dropLast, List.length_cons]
        omega
      · rcases List.mem_cons.mp hp1 with rfl | hp2
        · simp only [List.length_cons]
          omega
        · exact hdropmem 2 p hp2
  · rw [if_neg hb]
    have hsmall : (m :: o.pages.headD []).length ≤ DEFAULT_LIMIT := by omega
    refine ⟨by simpa using hsmall, ?_, ?_, ?_⟩
    · intro p hp
      rw [List.drop_succ_cons, List.drop_zero] at hp
      exact le_trans (hdropmem 1 p hp) (by omega)
    · intro p hp
      rw [List.drop_succ_cons, List.drop_drop] at hp
      exact hdropmem _ p hp
    · intro _ p hp
      rcases List.mem_cons.mp hp with rfl | hp1
      · exact hsmall
      · exact hdropmem 1 p hp1

/-- Witness for C5 at a concrete one-page cache. -/
theorem page_size_invariant_witness :
    ((specUpd (some ⟨[[⟨1, "a", "x", 5⟩]], [none]⟩) ⟨2, "b", "y", 9⟩).pages.headD
        []).length ≤ DEFAULT_LIMIT
    ∧ (∀ p ∈ (specUpd (some ⟨[[⟨1, "a", "x", 5⟩]], [none]⟩)
          ⟨2, "b", "y", 9⟩).pages.drop 1, p.length ≤ DEFAULT_LIMIT + 1)
    ∧ (∀ p ∈ (specUpd (some ⟨[[⟨1, "a", "x", 5⟩]], [none]⟩)
          ⟨2, "b", "y", 9⟩).pages.drop 2, p.length ≤ DEFAULT_LIMIT)
    ∧ (¬((([[(⟨1, "a", "x", 5⟩ : Note)]] : List (List Note)).headD []).length
            = DEFAULT_LIMIT
          ∧ (([[(⟨1, "a", "x", 5⟩ : Note)]] : List (List Note)).getD 1 []).length
            = DEFAULT_LIMIT) →
        ∀ p ∈ (specUpd (some ⟨[[⟨1, "a", "x", 5⟩]], [none]⟩)
            ⟨2, "b", "y", 9⟩).pages, p.length ≤ DEFAULT_LIMIT) :=
  page_size_invariant ⟨[[⟨1, "a", "x", 5⟩]], [none]⟩ ⟨2, "b", "y", 9⟩
    (by decide)

/-! ## C4: commit reconciliation -/

/-- C4 (confirmed): when the cache holds the placeholder exactly once,
the reconciliation step rewrites exactly that entry to the
server-returned note while keeping the placeholder's client-assigned
`createdAt`, and leaves the page count, every page length (hence the
total cache size) and the page params unchanged. -/
theorem reconcile_commit (d : InfiniteData) (i : Nat) (sv p : Note)
    (l1 l2 : List Note)
    (hsplit : d.pages.flatten = l1 ++ p :: l2)
    (hp : p.id = i)
    (hfresh : ∀ x, x ∈ l1 ∨ x ∈ l2 → x.id ≠ i) :
    (reconcile d i sv).pages.flatten
        = l1 ++ { sv with createdAt := p.createdAt } :: l2
    ∧ (reconcile d i sv).pages.map List.length = d.pages.map List.length
    ∧ (reconcile d i sv).pageParams = d.pageParams
    ∧ (reconcile d i sv).pages.flatten.length = d.pages.flatten.length := by
  have hflat := reconcile_flatten d i sv
  refine ⟨?_, ?_, rfl, ?_⟩
  · rw [hflat, hsplit, List.map_append, List.map_cons]
    have h1 : l1.map (fun note =>
        if note.id = i then { sv with createdAt := note.createdAt }
        else note) = l1.map id :=
      List.map_congr_left fun a ha => if_neg (hfresh a (Or.inl ha))
    have h2 : l2.map (fun note =>
        if note.id = i then { sv with createdAt := note.createdAt }
        else note) = l2.map id :=
      List.map_congr_left fun a ha => if_neg (hfresh a (Or.inr ha))
    rw [h1, h2, List.map_id, List.map_id, if_pos hp]
  · unfold reconcile
    simp only [List.map_map]
    exact List.map_congr_left fun page _ => by
      simp [Function.comp, List.length_map]
  · rw [hflat, List.length_map]

/-- Witness for C4 at a concrete one-placeholder cache. -/
theorem reconcile_commit_witness :
    (reconcile ⟨[[⟨1, "t", "c", 5⟩]], [none]⟩ 1 ⟨2, "T", "C", 7⟩).pages.flatten
        = [] ++ { (⟨2, "T", "C", 7⟩ : Note) with createdAt := (5 : Int) } :: []
    ∧ (reconcile ⟨[[⟨1, "t", "c", 5⟩]], [none]⟩ 1 ⟨2, "T", "C", 7⟩).pages.map
        List.length
        = ([[(⟨1, "t", "c", 5⟩ : Note)]] : List (List Note)).map List.length
    ∧ (reconcile ⟨[[⟨1, "t", "c", 5⟩]], [none]⟩ 1 ⟨2, "T", "C", 7⟩).pageParams
        = [none]
    ∧ (reconcile ⟨[[⟨1, "t", "c", 5⟩]], [none]⟩ 1
        ⟨2, "T", "C", 7⟩).pages.flatten.length
        = ([[(⟨1, "t", "c", 5⟩ : Note)]] : List (List Note)).flatten.length :=
  reconcile_commit ⟨[[⟨1, "t", "c", 5⟩]], [none]⟩ 1 ⟨2, "T", "C", 7⟩
    ⟨1, "t", "c", 5⟩ [] [] (by decide) (by decide)
    (by intro x hx; rcases hx with h | h <;> simp at h)

/-! ## C8: no duplicate ids in the cache -/

/-- C8 (confirmed): the speculative insert with a placeholder id not
already cached, and the reconciliation with a store-assigned id that
collides with no other cached note, both preserve the
no-duplicate-id invariant of the page concatenation. -/
theorem no_duplicate_id_invariant (old : Option InfiniteData) (m : Note)
    (d : InfiniteData) (i : Nat) (sv : Note)
    (h1 : ∀ o, old = some o → noDupIds o)
    (h2 : ∀ o, old = some o → m.id ∉ cacheIds o)
    (h3 : noDupIds d)
    (h4 : ∀ n ∈ d.pages.flatten, n.id ≠ i → n.id ≠ sv.id) :
    noDupIds (specUpd old m) ∧ noDupIds (reconcile d i sv) := by
  constructor
  · cases old with
    | none => simp [noDupIds, cacheIds, specUpd]
    | some o =>
      have hids : cacheIds (specUpd (some o) m) = m.id :: cacheIds o := by
        unfold cacheIds
        rw [specUpd_some_flatten, List.map_cons]
      rw [noDupIds, hids, List.nodup_cons]
      exact ⟨h2 o rfl, h1 o rfl⟩
  · have hids : cacheIds (reconcile d i sv)
        = (cacheIds d).map (fun x => if x = i then sv.id else x) := by
      unfold cacheIds
      rw [reconcile_flatten, List.map_map, List.map_map]
      exact List.map_congr_left fun n _ => by
        by_cases hn : n.id = i <;> simp [Function.comp, hn]
    rw [noDupIds, hids]
    refine List.Nodup.map_on ?_ h3
    intro x hx y hy hxy
    have hxprop : x ≠ i → x ≠ sv.id := by
      obtain ⟨n, hn, rfl⟩ := List.mem_map.mp hx
      exact h4 n hn
    have hyprop : y ≠ i → y ≠ sv.id := by
      obtain ⟨n, hn, rfl⟩ := List.mem_map.mp hy
      exact h4 n hn
    by_cases hxi : x = i <;> by_cases hyi : y = i
    · rw [hxi, hyi]
    · rw [if_pos hxi, if_neg hyi] at hxy
      exact absurd hxy.symm (hyprop hyi)
    · rw [if_neg hxi, if_pos hyi] at hxy
      exact absurd hxy (hxprop hxi)
    · rwa [if_neg hxi, if_neg hyi] at hxy

/-- Witness for C8 at concrete cache states. -/
theorem no_duplicate_id_invariant_witness :
    noDupIds (specUpd (some ⟨[[⟨1, "a", "a", 1⟩]], [none]⟩) ⟨2, "b", "b", 2⟩)
    ∧ noDupIds (reconcile ⟨[[⟨3, "c", "c", 3⟩]], [none]⟩ 3 ⟨10, "s", "s", 9⟩) :=
  no_duplicate_id_invariant (some ⟨[[⟨1, "a", "a", 1⟩]], [none]⟩)
    ⟨2, "b", "b", 2⟩ ⟨[[⟨3, "c", "c", 3⟩]], [none]⟩ 3 ⟨10, "s", "s", 9⟩
    (by intro o h; cases h; decide)
    (by intro o h; cases h; decide)
    (by decide) (by decide)

/-! ## C1: pagination round-trip -/

/-- C1, counterexample to the claim as stated: over a store of two notes
sharing the same `createdAt` and page size 1, the cursor (strictly-less
filtering on a non-unique key) skips the second note — the concatenated
pages omit it. -/
theorem pagination_roundtrip_cex :
    (⟨2, "b", "y", 0⟩ : Note) ∈ [(⟨1, "a", "x", 0⟩ : Note), ⟨2, "b", "y", 0⟩]
    ∧ (⟨2, "b", "y", 0⟩ : Note) ∉
        (paginate [⟨1, "a", "x", 0⟩, ⟨2, "b", "y", 0⟩] 1 4 none).flatten := by
  decide

/-- C1 (amended): for every store whose notes have pairwise-distinct
`createdAt` values and every page size `L ≥ 1`, the client loop —
passing each full page's last `createdAt` as the next cursor — needs at
most `store.length + 1` calls, and concatenating its pages yields
exactly the stored notes (a permutation, so no duplicates and no
omissions) in strictly descending `createdAt` order; iteration stops
with a final page shorter than `L`. -/
theorem pagination_roundtrip (store : List Note) (L fuel : Nat)
    (hL : 1 ≤ L) (hd : (store.map Note.createdAt).Nodup)
    (hfuel : store.length < fuel) :
    (paginate store L fuel none).flatten = sortByCreatedAtDesc store
    ∧ ((paginate store L fuel none).flatten).Perm store
    ∧ ((paginate store L fuel none).flatten).Pairwise strictDescBy
    ∧ ∃ p, (paginate store L fuel none).getLast? = some p
        ∧ p.length < L := by
  have hfilter : (sortByCreatedAtDesc store).filter (cursorPred none)
      = sortByCreatedAtDesc store := by
    rw [cursorPred_none, List.filter_true]
  have hflen : ((sortByCreatedAtDesc store).filter (cursorPred none)).length
      < fuel := by
    rw [hfilter, (sort_perm store).length_eq]
    exact hfuel
  obtain ⟨hflat, hlast⟩ := paginate_spec store L hL hd fuel none hflen
  rw [hfilter] at hflat
  exact ⟨hflat, hflat ▸ sort_perm store,
    hflat ▸ pairwise_strict_of_nodup_keys store hd, hlast⟩

/-- Witness for C1 on a three-note store with page size 2. -/
theorem pagination_roundtrip_witness :
    (paginate [⟨1, "a", "x", 5⟩, ⟨2, "b", "y", 3⟩, ⟨3, "c", "z", 8⟩] 2 4
        none).flatten
      = sortByCreatedAtDesc [⟨1, "a", "x", 5⟩, ⟨2, "b", "y", 3⟩,
          ⟨3, "c", "z", 8⟩]
    ∧ ((paginate [⟨1, "a", "x", 5⟩, ⟨2, "b", "y", 3⟩, ⟨3, "c", "z", 8⟩] 2 4
        none).flatten).Perm
        [⟨1, "a", "x", 5⟩, ⟨2, "b", "y", 3⟩, ⟨3, "c", "z", 8⟩]
    ∧ ((paginate [⟨1, "a", "x", 5⟩, ⟨2, "b", "y", 3⟩, ⟨3, "c", "z", 8⟩] 2 4
        none).flatten).Pairwise strictDescBy
    ∧ ∃ p, (paginate [⟨1, "a", "x", 5⟩, ⟨2, "b", "y", 3⟩,
        ⟨3, "c", "z", 8⟩] 2 4 none).getLast? = some p ∧ p.length < 2 :=
  pagination_roundtrip [⟨1, "a", "x", 5⟩, ⟨2, "b", "y", 3⟩,
    ⟨3, "c", "z", 8⟩] 2 4 (by decide) (by decide) (by decide)

/-! ## C2: shape of a single list call -/

/-- C2, counterexample to the claim as stated: a valid call
(`limit = 2`, no cursor) over a store with two notes sharing a
`createdAt` returns both, so the result is not strictly descending in
`createdAt`. -/
theorem list_call_shape_cex :
    parseGetNotes none (some 2) = some (none, 2)
    ∧ ¬ (getNotes [⟨1, "a", "x", 0⟩, ⟨2, "b", "y", 0⟩] none 2).Pairwise
        strictDescBy := by
  constructor
  · decide
  · decide

/-- C2 (amended): for every list call accepted by the schema (limit in
`[1,100]`, defaulting to 20 when absent, cursor passed through), the
result holds at most `limit` notes in descending `createdAt` order
(strictly descending whenever the store's `createdAt` values are
pairwise distinct); with a cursor every returned note is strictly older
than the cursor, and without one the returned notes are newest — no
omitted stored note is newer than any returned note. -/
theorem list_call_shape (store : List Note) (cursorIn : Option Int)
    (limitIn : Option Nat) (c : Option Int) (L : Nat)
    (hparse : parseGetNotes cursorIn limitIn = some (c, L)) :
    (1 ≤ L ∧ L ≤ 100)
    ∧ (limitIn = none → L = 20)
    ∧ c = cursorIn
    ∧ (getNotes store c L).length ≤ L
    ∧ (getNotes store c L).Pairwise descBy
    ∧ (∀ ts, c = some ts → ∀ n ∈ getNotes store c L, n.createdAt < ts)
    ∧ (c = none → ∀ x ∈ getNotes store c L, ∀ y ∈ store,
        y ∉ getNotes store c L → y.createdAt ≤ x.createdAt)
    ∧ ((store.map Note.createdAt).Nodup →
        (getNotes store c L).Pairwise strictDescBy) := by
  have hparsed : c = cursorIn ∧ 1 ≤ L ∧ L ≤ 100 ∧ (limitIn = none → L = 20) := by
    cases limitIn with
    | none =>
      simp only [parseGetNotes, Option.some.injEq, Prod.mk.injEq] at hparse
      exact ⟨hparse.1.symm, by omega, by omega, fun _ => hparse.2.symm⟩
    | some l0 =>
      simp only [parseGetNotes] at hparse
      by_cases hb : 1 ≤ l0 ∧ l0 ≤ 100
      · rw [if_pos hb] at hparse
        simp only [Option.some.injEq, Prod.mk.injEq] at hparse
        refine ⟨hparse.1.symm, ?_, ?_, fun h => by cases h⟩
        · omega
        · rw [← hparse.2]; exact hb.2
      · rw [if_neg hb] at hparse
        cases hparse
  refine ⟨⟨hparsed.2.1, hparsed.2.2.1⟩, hparsed.2.2.2, hparsed.1, ?_, ?_, ?_,
    ?_, ?_⟩
  · exact List.length_take_le L _
  · exact (sort_pairwise_desc _).sublist (List.take_sublist L _)
  · intro ts hc n hn
    subst hc
    have h1 : n ∈ sortByCreatedAtDesc
        (store.filter (cursorPred (some ts))) := List.mem_of_mem_take hn
    have h2 : n ∈ store.filter (cursorPred (some ts)) :=
      (List.mem_insertionSort descBy).mp h1
    have := (List.mem_filter.mp h2).2
    simpa [cursorPred] using this
  · intro hc x hx y hy hyn
    subst hc
    have hfilter : store.filter (cursorPred none) = store := by
      rw [cursorPred_none, List.filter_true]
    rw [getNotes, hfilter] at hx hyn
    have hysort : y ∈ sortByCreatedAtDesc store :=
      (List.mem_insertionSort descBy).mpr hy
    have hsplit : ((sortByCreatedAtDesc store).take L
        ++ (sortByCreatedAtDesc store).drop L).Pairwise descBy := by
      rw [List.take_append_drop]
      exact sort_pairwise_desc store
    have hydrop : y ∈ (sortByCreatedAtDesc store).drop L := by
      rcases List.mem_append.mp
        ((List.take_append_drop L (sortByCreatedAtDesc store)) ▸ hysort)
        with h | h
      · exact absurd h hyn
      · exact h
    exact (List.pairwise_append.mp hsplit).2.2 x hx y hydrop
  · intro hd
    have hd2 : ((store.filter (cursorPred c)).map Note.createdAt).Nodup :=
      hd.sublist ((List.filter_sublist store).map Note.createdAt)
    exact (pairwise_strict_of_nodup_keys _ hd2).sublist
      (List.take_sublist L _)

/-- Witness for C2 at a concrete accepted call. -/
theorem list_call_shape_witness :
    ((1 ≤ 1 ∧ 1 ≤ 100)
    ∧ (some 1 = (none : Option Nat) → 1 = 20)
    ∧ (none : Option Int) = none
    ∧ (getNotes [⟨1, "a", "x", 5⟩, ⟨2, "b", "y", 3⟩] none 1).length ≤ 1
    ∧ (getNotes [⟨1, "a", "x", 5⟩, ⟨2, "b", "y", 3⟩] none 1).Pairwise descBy
    ∧ (∀ ts, (none : Option Int) = some ts →
        ∀ n ∈ getNotes [⟨1, "a", "x", 5⟩, ⟨2, "b", "y", 3⟩] none 1,
          n.createdAt < ts)
    ∧ ((none : Option Int) = none →
        ∀ x ∈ getNotes [⟨1, "a", "x", 5⟩, ⟨2, "b", "y", 3⟩] none 1,
        ∀ y ∈ [(⟨1, "a", "x", 5⟩ : Note), ⟨2, "b", "y", 3⟩],
          y ∉ getNotes [⟨1, "a", "x", 5⟩, ⟨2, "b", "y", 3⟩] none 1 →
            y.createdAt ≤ x.createdAt)
    ∧ (([(⟨1, "a", "x", 5⟩ : Note), ⟨2, "b", "y", 3⟩].map
          Note.createdAt).Nodup →
        (getNotes [⟨1, "a", "x", 5⟩, ⟨2, "b", "y", 3⟩] none 1).Pairwise
          strictDescBy)) :=
  list_call_shape [⟨1, "a", "x", 5⟩, ⟨2, "b", "y", 3⟩] none (some 1) none 1
    (by decide)

end Noteflow
